import Mathlib

/-!
Verification of the conditional-event / probability-estimator core of the
C++ utilities repository (header `statutil.h`).  The header is available in
full; the implementation file `statutil.cc` is referenced by the build files
but not present, so bodies that live there are modelled from the
specification (each such definition carries a doc comment starting with
`Modelled from the spec:`).  Inline bodies present in the header
(`EventValueRange::insert`, the continuous-float `addRange`, the
modified-flag accessors) are embedded directly from the source.
-/

namespace StatUtil

/-- Kinds of the external tagged value type `Var` (anyutil): boolean,
character, signed integer, unsigned integer, float, date, string, and the
float interval used by interval events. -/
inductive VarKind where
  | kBool | kChar | kInt | kUInt | kFloat | kDate | kString | kFloatInterval
  deriving DecidableEq, Repr

/-- The external tagged value type `Var`: exactly one of a fixed set of
primitive kinds, or a (float) interval.  Floats are modelled as rationals. -/
inductive Var where
  | vbool : Bool → Var
  | vchar : Char → Var
  | vint : Int → Var
  | vuint : Nat → Var
  | vfloat : ℚ → Var
  | vdate : Nat → Var
  | vstring : String → Var
  | vfloatInterval : ℚ → ℚ → Var
  deriving DecidableEq, Repr

/-- The underlying kind (C++ `type_info`) of a `Var`. -/
def Var.kind : Var → VarKind
  | .vbool _ => .kBool
  | .vchar _ => .kChar
  | .vint _ => .kInt
  | .vuint _ => .kUInt
  | .vfloat _ => .kFloat
  | .vdate _ => .kDate
  | .vstring _ => .kString
  | .vfloatInterval _ _ => .kFloatInterval

/-- C++ `sameType(v, w)`: the two tagged values hold the same underlying kind. -/
def sameType (v w : Var) : Bool := v.kind == w.kind

/-- Same-kind strict ordering on tagged values; comparisons across kinds are
false (the external `Var` is comparable for ordering only between same-kind
values). -/
def Var.lt : Var → Var → Bool
  | .vbool a, .vbool b => !a && b
  | .vchar a, .vchar b => a < b
  | .vint a, .vint b => a < b
  | .vuint a, .vuint b => a < b
  | .vfloat a, .vfloat b => a < b
  | .vdate a, .vdate b => a < b
  | .vstring a, .vstring b => a < b
  | _, _ => false

/-- Membership of a point value in an interval value (`IsElementOf` on a
float interval; any other combination is false). -/
def Var.elementOf : Var → Var → Bool
  | .vfloatInterval lo hi, .vfloat x => lo ≤ x && x ≤ hi
  | _, _ => false

/-- The comparison-operation capabilities (`Equals`, `Less`, `LessEqual`,
`Greater`, `GreaterEqual`, `IsElementOf`, `PlaceHolderOp`). -/
inductive Operation where
  | equals | less | lessEqual | greater | greaterEqual | isElementOf | placeHolderOp
  deriving DecidableEq, Repr

/-- Modelled from the spec: evaluation of a comparison-operation object on
(reference value, candidate value); the operation bodies live in the external
collaborator `anyutil`.  The placeholder operation always returns false. -/
def Operation.eval : Operation → Var → Var → Bool
  | .equals, v, w => v == w
  | .less, v, w => v.lt w
  | .lessEqual, v, w => v.lt w || v == w
  | .greater, v, w => w.lt v
  | .greaterEqual, v, w => w.lt v || v == w
  | .isElementOf, v, w => v.elementOf w
  | .placeHolderOp, _, _ => false

/-- One statistical `Event`: name, tagged value, comparison operation and the
placeholder flag (fields `name_`, `value_`, `operation_`, `isPlaceHolder_`). -/
structure Event where
  name : String
  value : Var
  op : Operation
  isPlaceHolder : Bool
  deriving DecidableEq, Repr

/-- Modelled from the spec: `Event::matches` (body in the missing
`statutil.cc`).  False if the names differ, a placeholder never matches,
otherwise this event's operation applied to (this.value, other.value). -/
def Event.evMatches (e f : Event) : Bool :=
  if e.isPlaceHolder then false
  else if e.name ≠ f.name then false
  else e.op.eval e.value f.value

/-- Modelled from the spec: `Event::notConflicting` (body in the missing
`statutil.cc`).  True if the names differ, or the names match and `matches`
holds in at least one direction. -/
def Event.notConflicting (e f : Event) : Bool :=
  decide (e.name ≠ f.name) || e.evMatches f || f.evMatches e

/-- The container of `EventList` is `std::set<Event>` (`EVENT_CONTAINER`),
an ordered duplicate-free collection; modelled as a `Finset`. -/
structure EventList where
  evts : Finset Event
  deriving DecidableEq

/-- The empty event list (`EventList()`). -/
def EventList.empty : EventList := ⟨∅⟩

/-- Number of events in the list (`EventList::size`). -/
def EventList.size (l : EventList) : Nat := l.evts.card

/-- Payload of `eventlist_conflict_error`: the offending list and event. -/
structure ConflictError where
  list : EventList
  event : Event
  deriving DecidableEq

/-- Modelled from the spec: `EventList::operator&&` appending a single
`Event` (body in the missing `statutil.cc`).  If an already-present event
conflicts with the new one the append fails with an
`eventlist_conflict_error`; otherwise the event is inserted into the
underlying `std::set`. -/
def EventList.appendEvent (l : EventList) (e : Event) : Except ConflictError EventList :=
  if ∀ f ∈ l.evts, f.notConflicting e = true then .ok ⟨insert e l.evts⟩
  else .error ⟨l, e⟩

/-- The distribution-family tag of an `EventValueRange`. -/
inductive DistributionType where
  | discrete | floatUniform | gaussian | exponential
  deriving DecidableEq, Repr

/-- `EventValueRange`: a distribution-type tag and the collection
(`RANGEVALUE_SET`, a `std::set<Var>`) describing the range.  Modelled with a
duplicate-free list whose head plays the role of `*(values_.begin())`. -/
structure EventValueRange where
  dtype : DistributionType
  values : List Var
  deriving DecidableEq

/-- Embedded from the header-inline `EventValueRange::insert`: insert a value
only when the collection is empty or the value has the same type as the first
stored element; returns whether insertion was accepted. -/
def rangeInsert (vals : List Var) (v : Var) : List Var × Bool :=
  match vals with
  | [] => ([v], true)
  | w :: _ => if sameType v w then (vals.insert v, true) else (vals, false)

/-- Modelled from the spec: `EventValueRange::add` (body in the missing
`statutil.cc`) adds a value if the type is valid, returning false otherwise
without raising an error; it defers to the header-inline `insert`. -/
def EventValueRange.add (r : EventValueRange) (v : Var) : EventValueRange × Bool :=
  let (vals, ok) := rangeInsert r.values v
  ({ r with values := vals }, ok)

/-- Fold a sequence of `add` calls over a range. -/
def EventValueRange.addAll (r : EventValueRange) (vs : List Var) : EventValueRange :=
  vs.foldl (fun s v => (s.add v).1) r

/-- The empty discrete range. -/
def EventValueRange.emptyRange : EventValueRange := ⟨.discrete, []⟩

/-- Embedded from the header-inline continuous-float
`EventValueRange::addRange(VAR_FLOAT, VAR_FLOAT)`: swap the endpoints when
given in descending order, record whether the interval is non-degenerate,
clear the stored values and insert the two endpoints. -/
def EventValueRange.addRangeFloat (r : EventValueRange) (lowest highest : ℚ) :
    EventValueRange × Bool :=
  let p := if highest < lowest then (highest, lowest) else (lowest, highest)
  let reval := decide (p.2 ≠ p.1)
  let v0 := (rangeInsert [] (Var.vfloat p.1)).1
  let v1 := (rangeInsert v0 (Var.vfloat p.2)).1
  ({ r with values := v1 }, reval)

/-- `validType(v)`: true if the value's kind matches the first inserted kind,
or the range is still empty. -/
def EventValueRange.validType (r : EventValueRange) (v : Var) : Bool :=
  match r.values with
  | [] => true
  | w :: _ => sameType v w

/-- Modelled from the spec: `EventValueRange::validValue` (body in the missing
`statutil.cc`).  For discrete ranges, exact membership in the value set; for
continuous ranges, numeric containment between the two stored endpoints
inclusive (an empty continuous range accepts any value). -/
def EventValueRange.validValue (r : EventValueRange) (v : Var) : Bool :=
  match r.dtype with
  | .discrete => decide (v ∈ r.values)
  | _ =>
    match r.values with
    | [a, b] => (a.lt v || a == v) && (v.lt b || v == b)
    | _ => true

/-- `CondEvent`: a pair of `EventList`s, the event side (`eList_`) and the
condition side (`condList_`). -/
structure CondEvent where
  eList : EventList
  condList : EventList
  deriving DecidableEq

/-- The probability table of `DiscreteProbability` (`PROB_TABLE`, a
`std::map<CondEvent, long double>`), modelled as an association list with
rational probabilities. -/
abbrev ProbTable : Type := List (CondEvent × ℚ)

/-- Sum of the stored probabilities of all entries sharing the given
condition-side grouping. -/
def groupTotal (vs : ProbTable) (c : EventList) : ℚ :=
  ((vs.filter fun e => decide (e.1.condList = c)).map fun e => e.2).sum

/-- Divide every stored probability by the total of its condition-side group. -/
def normaliseValues (vs : ProbTable) : ProbTable :=
  vs.map fun e => (e.1, e.2 / groupTotal vs e.1.condList)

/-- `DiscreteProbability`: the two variable-domain mappings inherited from
`ProbabilityFunction` (`eventValueRanges_`, `conditionValueRanges_`), the two
flags `isUniform_` and `hasBeenModified_`, and the probability table
`values_`. -/
structure DiscreteProbability where
  eventValueRanges : List (String × EventValueRange)
  conditionValueRanges : List (String × EventValueRange)
  isUniform : Bool
  hasBeenModified : Bool
  values : ProbTable

/-- Modelled from the spec: `DiscreteProbability::normalise` (body in the
missing `statutil.cc`).  For each condition-side grouping, divide every
stored probability by the group's total, and clear the `hasBeenModified_`
flag; fails (distribution error) when some group's total is zero, in which
case the spec prescribes no fallback division.  -/
def DiscreteProbability.normalise (d : DiscreteProbability) : Option DiscreteProbability :=
  if ∀ e ∈ d.values, groupTotal d.values e.1.condList ≠ 0 then
    some { d with values := normaliseValues d.values, hasBeenModified := false }
  else none

/-- Table lookup used by `DiscreteProbability::P`: the stored probability of
the conditional event, or 0.0 if absent. -/
def lookupP (vs : ProbTable) (ce : CondEvent) : ℚ :=
  (((vs.find? fun e => decide (e.1 = ce)).map fun e => e.2).getD 0)

/-- Check that every condition-side group's probabilities sum to one (the
`isDistribution` integrity condition). -/
def distCheck (vs : ProbTable) : Bool :=
  decide (∀ e ∈ vs, groupTotal vs e.1.condList = 1)

/-- Modelled from the spec: the query path of `DiscreteProbability::P` (body
in the missing `statutil.cc`).  Per the lazy-consistency protocol, a query on
a table whose `hasBeenModified_` flag is set must first trigger
`normalise()` (clearing the flag) or fail the call; it never reads the
un-normalised table. -/
def DiscreteProbability.Pquery (d : DiscreteProbability) (ce : CondEvent) :
    Option (ℚ × DiscreteProbability) :=
  if d.hasBeenModified then
    match d.normalise with
    | some d2 => some (lookupP d2.values ce, d2)
    | none => none
  else some (lookupP d.values ce, d)

/-- Modelled from the spec: the query path of
`DiscreteProbability::isDistribution` (body in the missing `statutil.cc`),
guarded by the same lazy-consistency protocol as `P`. -/
def DiscreteProbability.isDistributionQuery (d : DiscreteProbability) :
    Option (Bool × DiscreteProbability) :=
  if d.hasBeenModified then
    match d.normalise with
    | some d2 => some (distCheck d2.values, d2)
    | none => none
  else some (distCheck d.values, d)

/-- Modelled from the spec: `DiscreteProbability::clear` (body in the missing
`statutil.cc`) resets the table to the estimator's default (the empty table)
and never clears the variable-domain mappings. -/
def DiscreteProbability.clear (d : DiscreteProbability) : DiscreteProbability :=
  { d with values := [] }

/-- Modelled from the spec: the transactional contract of
`ProbabilityFunction::train` shared by every estimator.  Either the full
batch of rows updates the accumulation state (row by row, left to right), or
an error is raised before any estimator state is mutated: the returned state
is the caller-visible state after the call, the flag reports success. -/
def trainBatch {σ Row : Type} (rowValid : Row → Bool) (applyRow : σ → Row → σ)
    (s : σ) (rows : List Row) : σ × Bool :=
  if rows.all rowValid then (rows.foldl applyRow s, true) else (s, false)

/-- Lookup of a named variable-domain in a `VALUERANGES_TYPE` mapping. -/
def findRange (ranges : List (String × EventValueRange)) (name : String) :
    Option EventValueRange :=
  (ranges.find? fun p => p.1 == name).map fun p => p.2

/-- Modelled from the spec: `ProbabilityFunction::possibleCondEvent` — every
named event on both sides must have a value that is `validType` and
`validValue` for the stored range of that name, or the name is as-yet
unknown, in which case it is always possible. -/
def possibleCondEventB (evr cvr : List (String × EventValueRange)) (ce : CondEvent) : Bool :=
  decide ((∀ e ∈ ce.eList.evts, ∀ r ∈ findRange evr e.name,
            r.validType e.value = true ∧ r.validValue e.value = true) ∧
          (∀ e ∈ ce.condList.evts, ∀ r ∈ findRange cvr e.name,
            r.validType e.value = true ∧ r.validValue e.value = true))

/-- One accumulation step of `DiscreteProbability::train`: increment the
accumulated count of the row's conditional event and mark the table
modified. -/
def dpApplyRow (d : DiscreteProbability) (ce : CondEvent) : DiscreteProbability :=
  { d with
    values :=
      if (d.values.find? fun e => decide (e.1 = ce)).isSome then
        d.values.map fun e => if e.1 = ce then (e.1, e.2 + 1) else e
      else d.values ++ [(ce, 1)],
    hasBeenModified := true }

/-- Modelled from the spec: `DiscreteProbability::train` (body in the missing
`statutil.cc`) as an instance of the shared transactional contract: rows are
conditional events vetted by `possibleCondEvent` against the pre-call
domains; accumulation applies only when the whole batch is valid. -/
def DiscreteProbability.train (d : DiscreteProbability) (rows : List CondEvent) :
    DiscreteProbability × Bool :=
  trainBatch (possibleCondEventB d.eventValueRanges d.conditionValueRanges) dpApplyRow d rows

/-- Parameter record of `GaussFunction` (`GAUSS_PARAM`). -/
structure GaussParam where
  mu : ℚ
  sigma : ℚ
  occurences : ℚ
  deriving DecidableEq

/-- `GaussFunction`: inherited domain mappings plus the per-condition
parameter table `param_`. -/
structure GaussFunction where
  eventValueRanges : List (String × EventValueRange)
  conditionValueRanges : List (String × EventValueRange)
  param : List (EventList × GaussParam)

/-- Modelled from the spec: `GaussFunction::clear` (body in the missing
`statutil.cc`) resets the parameters mu and sigma to standard normal values,
leaving the variable-domain mappings untouched. -/
def GaussFunction.clear (g : GaussFunction) : GaussFunction :=
  { g with param := [(EventList.empty, ⟨0, 1, 0⟩)] }

/-- Parameter record of `ExponentialFunction` (`EXP_PARAM`). -/
structure ExpParam where
  lambda : ℚ
  occurences : ℚ
  deriving DecidableEq

/-- `ExponentialFunction`: inherited domain mappings plus the per-condition
parameter table `param_`. -/
structure ExponentialFunction where
  eventValueRanges : List (String × EventValueRange)
  conditionValueRanges : List (String × EventValueRange)
  param : List (EventList × ExpParam)

/-- Modelled from the spec: `ExponentialFunction::clear` (body in the missing
`statutil.cc`) resets the expectation lambda to 1.0, leaving the
variable-domain mappings untouched. -/
def ExponentialFunction.clear (g : ExponentialFunction) : ExponentialFunction :=
  { g with param := [(EventList.empty, ⟨1, 0⟩)] }

/-- Parameter record of `UniformFloatFunction` (`UNIF_PARAM`), default
constructed with low 0.0 and high 1.0. -/
structure UnifParam where
  low : ℚ
  high : ℚ
  occurences : ℚ
  deriving DecidableEq

/-- `UniformFloatFunction`: inherited domain mappings plus the per-condition
parameter table `param_`. -/
structure UniformFloatFunction where
  eventValueRanges : List (String × EventValueRange)
  conditionValueRanges : List (String × EventValueRange)
  param : List (EventList × UnifParam)

/-- Modelled from the spec: `UniformFloatFunction::clear` (body in the
missing `statutil.cc`) resets the parameters to the constructor defaults
(low 0.0, high 1.0, no occurrences), leaving the variable-domain mappings
untouched. -/
def UniformFloatFunction.clear (g : UniformFloatFunction) : UniformFloatFunction :=
  { g with param := [(EventList.empty, ⟨0, 1, 0⟩)] }

/-- A conditional event over variables indexed by `Fin n`, identified by the
index sets of its event side and condition side; the value of each variable
is supplied by the ambient full assignment.  This is the shape produced by
`CondEvent::chainRule`. -/
structure CondEventIdx (n : ℕ) where
  evt : Finset (Fin n)
  cond : Finset (Fin n)
  deriving DecidableEq

/-- Modelled from the spec: the pool recursion of `CondEvent::chainRule`
(body in the missing `statutil.cc`).  Iteratively move the event for the
next requested name out of the remaining pool into the event side of a new
`CondEvent`, with everything still remaining in the pool as its condition
side; fail (None, the C++ `false`) if a requested name is absent from the
pool. -/
def chainRuleAux {n : ℕ} (pool : Finset (Fin n)) : List (Fin n) → Option (List (CondEventIdx n))
  | [] => some []
  | i :: rest =>
    if i ∈ pool then
      (chainRuleAux (pool.erase i) rest).map fun cel => ⟨{i}, pool.erase i⟩ :: cel
    else none

/-- Marginal probability of a canonised, normalised discrete joint table
`p` over assignments `Fin n → V`: the total mass of all assignments that
agree with `x` on the index set `S`. -/
def marge {n : ℕ} {V : Type} [Fintype V] [DecidableEq V]
    (p : (Fin n → V) → ℚ) (S : Finset (Fin n)) (x : Fin n → V) : ℚ :=
  ∑ y ∈ Finset.univ.filter (fun y => ∀ i ∈ S, y i = x i), p y

/-- Modelled from the spec: `DiscreteProbability::P` of a chain-rule
conditional event against the canonised, normalised joint table `p`: the
conditional probability of the event-side assignment given the
condition-side assignment, both read off the full assignment `x`. -/
def chainP {n : ℕ} {V : Type} [Fintype V] [DecidableEq V]
    (p : (Fin n → V) → ℚ) (c : CondEventIdx n) (x : Fin n → V) : ℚ :=
  marge p (c.evt ∪ c.cond) x / marge p c.cond x

/-- Example event `Event("x", 1)` with the default equality operation. -/
def exEvent1 : Event := ⟨"x", .vint 1, .equals, false⟩

/-- Example event `Event("x", 2)` with the default equality operation. -/
def exEvent2 : Event := ⟨"x", .vint 2, .equals, false⟩

/-- Example event `Event("x", 1, less)`. -/
def exEventLess : Event := ⟨"x", .vint 1, .less, false⟩

/-- Example one-element event list holding `Event("x", 1)`. -/
def exList1 : EventList := ⟨{exEvent1}⟩

/-- Example one-element event list holding `Event("x", 1, less)`. -/
def exListLess : EventList := ⟨{exEventLess}⟩

/-- Example unconditional conditional-event `P(x = 1)`. -/
def exCE1 : CondEvent := ⟨exList1, EventList.empty⟩

/-- Example discrete probability state: a one-entry table marked modified. -/
def exDP : DiscreteProbability := ⟨[], [], false, true, [(exCE1, 1)]⟩

/-- The example discrete probability state after normalisation. -/
def exDPnorm : DiscreteProbability := ⟨[], [], false, false, [(exCE1, 1)]⟩

/-- Example discrete probability state whose event range for `x` holds a
boolean, so that an integer-valued training row is rejected. -/
def exDPbad : DiscreteProbability :=
  ⟨[("x", ⟨.discrete, [Var.vbool true]⟩)], [], false, false, []⟩

/-- Inserting into a nonempty kind-homogeneous collection keeps it nonempty
and kind-homogeneous. -/
theorem rangeInsert_kind (k : VarKind) (w : Var) (ws : List Var) (v : Var)
    (h2 : ∀ x ∈ w :: ws, x.kind = k) :
    (rangeInsert (w :: ws) v).1 ≠ [] ∧ ∀ x ∈ (rangeInsert (w :: ws) v).1, x.kind = k := by
  have hred : rangeInsert (w :: ws) v =
      if sameType v w then ((w :: ws).insert v, true) else (w :: ws, false) := rfl
  rw [hred]
  cases hs : sameType v w with
  | false =>
    rw [if_neg (by simp [hs])]
    exact ⟨List.cons_ne_nil w ws, h2⟩
  | true =>
    rw [if_pos (by simp [hs])]
    have hvk : v.kind = k := by
      have hvw : v.kind = w.kind := by simpa [sameType] using hs
      rw [hvw]
      exact h2 w (List.mem_cons_self w ws)
    by_cases hv : v ∈ w :: ws
    · rw [List.insert_of_mem hv]
      exact ⟨List.cons_ne_nil w ws, h2⟩
    · rw [List.insert_of_not_mem hv]
      refine ⟨List.cons_ne_nil v (w :: ws), ?_⟩
      intro x hx
      rcases List.mem_cons.mp hx with h | h
      · rw [h]; exact hvk
      · exact h2 x h

/-- Folding `add` calls preserves nonemptiness and kind-homogeneity of the
stored value set. -/
theorem addAll_kind_invariant (k : VarKind) (vs : List Var) :
    ∀ (r : EventValueRange), r.values ≠ [] → (∀ x ∈ r.values, x.kind = k) →
      (r.addAll vs).values ≠ [] ∧ ∀ x ∈ (r.addAll vs).values, x.kind = k := by
  induction vs with
  | nil => intro r h1 h2; exact ⟨h1, h2⟩
  | cons v rest ih =>
    intro r h1 h2
    have hstep : (r.add v).1.values ≠ [] ∧ ∀ x ∈ (r.add v).1.values, x.kind = k := by
      cases hv : r.values with
      | nil => exact absurd hv h1
      | cons w ws =>
        have h2' : ∀ x ∈ w :: ws, x.kind = k := by rw [← hv]; exact h2
        have := rangeInsert_kind k w ws v h2'
        unfold EventValueRange.add
        rw [hv]
        exact this
    exact ih (r.add v).1 hstep.1 hstep.2

/-- C4: for every `EventValueRange` and every sequence of `add` calls with
values of arbitrary kinds, every value stored in the final value set has the
same underlying primitive kind as the first value that was inserted, and an
`add` whose argument has a different kind returns false and leaves the value
set unchanged, without raising an error. -/
theorem eventValueRange_add_homogeneous :
    (∀ (vs : List Var) (hne : vs ≠ []),
      ∀ x ∈ (EventValueRange.emptyRange.addAll vs).values, x.kind = (vs.head hne).kind) ∧
    (∀ (r : EventValueRange) (v : Var), r.values ≠ [] →
      (∀ x ∈ r.values, sameType v x = false) → r.add v = (r, false)) := by
  constructor
  · intro vs hne
    cases vs with
    | nil => exact absurd rfl hne
    | cons v rest =>
      have hstep : EventValueRange.emptyRange.addAll (v :: rest) =
          (EventValueRange.emptyRange.add v).1.addAll rest := rfl
      rw [hstep]
      have h1 : (EventValueRange.emptyRange.add v).1.values = [v] := rfl
      have := addAll_kind_invariant v.kind rest (EventValueRange.emptyRange.add v).1
        (by rw [h1]; exact List.cons_ne_nil v []) (by rw [h1]; simp)
      exact this.2
  · intro r v h1 h2
    cases hv : r.values with
    | nil => exact absurd hv h1
    | cons w ws =>
      have hw : sameType v w = false := h2 w (by rw [hv]; exact List.mem_cons_self w ws)
      unfold EventValueRange.add rangeInsert
      rw [hv]
      simp only [hw, Bool.false_eq_true, if_false]
      have hr : ({ r with values := w :: ws } : EventValueRange) = r := by rw [← hv]
      rw [hr]

/-- Witness for C4: mixed-kind `add` sequence from the empty range keeps
only integer-kind values, and an `add` of a boolean into an integer range is
rejected leaving the range unchanged. -/
theorem eventValueRange_add_homogeneous_witness :
    (([Var.vint 1, Var.vbool true, Var.vint 2] : List Var) ≠ []) ∧
    (∀ x ∈ (EventValueRange.emptyRange.addAll
        [Var.vint 1, Var.vbool true, Var.vint 2]).values, x.kind = VarKind.kInt) ∧
    ((⟨DistributionType.discrete, [Var.vint 1]⟩ : EventValueRange).values ≠ []) ∧
    (∀ x ∈ (⟨DistributionType.discrete, [Var.vint 1]⟩ : EventValueRange).values,
      sameType (Var.vbool true) x = false) ∧
    (⟨DistributionType.discrete, [Var.vint 1]⟩ : EventValueRange).add (Var.vbool true) =
      (⟨DistributionType.discrete, [Var.vint 1]⟩, false) := by
  refine ⟨by simp, ?_, by simp, by decide, ?_⟩
  · intro x hx
    exact eventValueRange_add_homogeneous.1 [Var.vint 1, Var.vbool true, Var.vint 2]
      (by simp) x hx
  · exact eventValueRange_add_homogeneous.2 ⟨DistributionType.discrete, [Var.vint 1]⟩
      (Var.vbool true) (by simp) (by decide)

/-- C6: appending via `EventList::operator&&` an Event whose name matches a
non-placeholder member of the list and whose value conflicts with it
(matches in neither direction) raises `eventlist_conflict_error`; the
conflicting Event is not silently dropped or silently inserted. -/
theorem appendEvent_conflict (l : EventList) (e1 e2 : Event)
    (hmem : e1 ∈ l.evts) (hph : e1.isPlaceHolder = false)
    (hname : e1.name = e2.name)
    (h12 : e1.evMatches e2 = false) (h21 : e2.evMatches e1 = false) :
    l.appendEvent e2 = .error ⟨l, e2⟩ := by
  unfold EventList.appendEvent
  rw [if_neg]
  intro hall
  have hc := hall e1 hmem
  unfold Event.notConflicting at hc
  rw [hname] at hc
  simp [h12, h21] at hc

/-- Witness for C6 at the concrete conflict `Event("x",1)` versus
`Event("x",2)`, both with the equality operation. -/
theorem appendEvent_conflict_witness :
    exEvent1 ∈ exList1.evts ∧ exEvent1.isPlaceHolder = false ∧
    exEvent1.name = exEvent2.name ∧ exEvent1.evMatches exEvent2 = false ∧
    exEvent2.evMatches exEvent1 = false ∧
    exList1.appendEvent exEvent2 = .error ⟨exList1, exEvent2⟩ :=
  ⟨by decide, by decide, by decide, by decide, by decide,
    appendEvent_conflict exList1 exEvent1 exEvent2 (by decide) (by decide) (by decide)
      (by decide) (by decide)⟩

/-- C9: for all Events e1 and e2, `Event::notConflicting` is symmetric. -/
theorem notConflicting_symm (e f : Event) : e.notConflicting f = f.notConflicting e := by
  unfold Event.notConflicting
  by_cases h : e.name = f.name
  · simp [h, Bool.or_comm]
  · simp [h, Ne.symm h]

/-- C10 counterexample: the event `Event("x",1,less)` is already contained
in the list, yet appending it again raises the self-conflict error instead
of leaving the list unchanged (its `less` operation does not match its own
value). -/
theorem appendEvent_duplicate_counterexample :
    exEventLess ∈ exListLess.evts ∧
    exListLess.appendEvent exEventLess = .error ⟨exListLess, exEventLess⟩ :=
  ⟨by decide, by rfl⟩

/-- C10 amended: appending an Event already contained in the list leaves the
list unchanged (same size, same member Events, by the `std::set` storage)
provided no member of the list conflicts with it — in particular the event
must match itself under its own operation, as equality-operation events do. -/
theorem appendEvent_duplicate_noop (l : EventList) (e : Event) (hmem : e ∈ l.evts)
    (hok : ∀ f ∈ l.evts, f.notConflicting e = true) :
    l.appendEvent e = .ok l := by
  unfold EventList.appendEvent
  rw [if_pos hok]
  rw [Finset.insert_eq_self.mpr hmem]

/-- Witness for the amended C10 at the concrete duplicate `Event("x",1)`
with the equality operation. -/
theorem appendEvent_duplicate_noop_witness :
    exEvent1 ∈ exList1.evts ∧ (∀ f ∈ exList1.evts, f.notConflicting exEvent1 = true) ∧
    exList1.appendEvent exEvent1 = .ok exList1 :=
  ⟨by decide, by decide, appendEvent_duplicate_noop exList1 exEvent1 (by decide) (by decide)⟩

/-- C8: the continuous-float `addRange(lo, hi)` discards any previously
stored values (the result does not depend on them), stores exactly the pair
(min(lo,hi), max(lo,hi)), and returns false exactly when lo equals hi. -/
theorem addRangeFloat_spec (r : EventValueRange) (lo hi : ℚ) :
    (∀ x, x ∈ (r.addRangeFloat lo hi).1.values ↔
      (x = Var.vfloat (min lo hi) ∨ x = Var.vfloat (max lo hi))) ∧
    ((r.addRangeFloat lo hi).2 = false ↔ lo = hi) ∧
    (∀ r2 : EventValueRange, (r.addRangeFloat lo hi).1.values =
      (r2.addRangeFloat lo hi).1.values) := by
  have hp : (if hi < lo then (hi, lo) else (lo, hi)) = (min lo hi, max lo hi) := by
    split_ifs with h
    · rw [min_eq_right h.le, max_eq_left h.le]
    · push_neg at h
      rw [min_eq_left h, max_eq_right h]
  have hins : (rangeInsert [] (Var.vfloat (min lo hi))).1 = [Var.vfloat (min lo hi)] := rfl
  have hmain : ∀ r2 : EventValueRange, r2.addRangeFloat lo hi =
      (⟨r2.dtype, (List.insert (Var.vfloat (max lo hi)) [Var.vfloat (min lo hi)])⟩,
        decide (max lo hi ≠ min lo hi)) := by
    intro r2
    unfold EventValueRange.addRangeFloat
    rw [hp]
    exact rfl
  have hminmax : min lo hi = max lo hi → lo = hi := by
    intro h
    have h1 : lo ≤ max lo hi := le_max_left _ _
    have h2 : hi ≤ max lo hi := le_max_right _ _
    have h3 : min lo hi ≤ lo := min_le_left _ _
    have h4 : min lo hi ≤ hi := min_le_right _ _
    exact le_antisymm (h1.trans (h ▸ h4)) (h2.trans (h ▸ h3))
  refine ⟨?_, ?_, ?_⟩
  · intro x
    rw [hmain r]
    by_cases h : lo = hi
    · have hmM : min lo hi = max lo hi := by rw [h, min_self, max_self]
      have hmem : Var.vfloat (max lo hi) ∈ [Var.vfloat (min lo hi)] := by
        simp [hmM]
      rw [List.insert_of_mem hmem]
      simp [hmM]
    · have hne : Var.vfloat (max lo hi) ∉ [Var.vfloat (min lo hi)] := by
        simp only [List.mem_singleton, Var.vfloat.injEq]
        intro hc
        exact h (hminmax hc.symm)
      rw [List.insert_of_not_mem hne]
      simp [or_comm]
  · rw [hmain r]
    simp only [decide_eq_false_iff_not, ne_eq, not_not]
    constructor
    · intro h
      exact hminmax h.symm
    · intro h
      rw [h, min_self, max_self]
  · intro r2
    rw [hmain r, hmain r2]

/-- Summing the per-entry probabilities all divided by one constant equals
the divided sum. -/
theorem sum_map_div (l : List (CondEvent × ℚ)) (T : ℚ) :
    (l.map fun e => e.2 / T).sum = (l.map fun e => e.2).sum / T := by
  induction l with
  | nil => simp
  | cons a l ih => simp [ih, add_div]

/-- Normalising rescales every condition-side group total to total/total. -/
theorem groupTotal_normaliseValues (vs : ProbTable) (c : EventList) :
    groupTotal (normaliseValues vs) c = groupTotal vs c / groupTotal vs c := by
  unfold groupTotal normaliseValues
  rw [List.filter_map]
  rw [List.map_map]
  have hcong : ∀ e ∈ vs.filter ((fun e : CondEvent × ℚ => decide (e.1.condList = c)) ∘
      (fun e : CondEvent × ℚ => (e.1, e.2 / groupTotal vs e.1.condList))),
      ((fun e : CondEvent × ℚ => e.2) ∘
        (fun e : CondEvent × ℚ => (e.1, e.2 / groupTotal vs e.1.condList))) e =
      (fun e : CondEvent × ℚ => e.2 / groupTotal vs c) e := by
    intro e he
    have hc : e.1.condList = c := by
      have := (List.mem_filter.mp he).2
      simpa using this
    simp [Function.comp, hc]
  rw [List.map_congr_left hcong]
  have : (vs.filter ((fun e : CondEvent × ℚ => decide (e.1.condList = c)) ∘
      (fun e : CondEvent × ℚ => (e.1, e.2 / groupTotal vs e.1.condList)))) =
      vs.filter (fun e : CondEvent × ℚ => decide (e.1.condList = c)) := rfl
  rw [this, sum_map_div]
  rfl

/-- Normalisation clears the `hasBeenModified_` flag whenever it succeeds. -/
theorem normalise_clears_modified (d dn : DiscreteProbability)
    (h : d.normalise = some dn) : dn.hasBeenModified = false := by
  unfold DiscreteProbability.normalise at h
  split_ifs at h with hnz
  rw [← Option.some.inj h]

/-- C2: whenever `normalise` succeeds it is idempotent — a second
`normalise` succeeds and leaves every stored probability unchanged — and
after it every distinct condition-side grouping of the table sums to 1.0
(exactly, in the rational model, hence within tolerance 1e-9). -/
theorem normalise_idempotent_sum_one (d d' : DiscreteProbability)
    (h : d.normalise = some d') :
    d'.normalise = some d' ∧ ∀ e ∈ d'.values, groupTotal d'.values e.1.condList = 1 := by
  unfold DiscreteProbability.normalise at h
  split_ifs at h with hnz
  have hd' : ({ d with values := normaliseValues d.values, hasBeenModified := false } :
      DiscreteProbability) = d' := Option.some.inj h
  have hvals : d'.values = normaliseValues d.values := by rw [← hd']
  have hmod : d'.hasBeenModified = false := by rw [← hd']
  have hsum : ∀ e ∈ d'.values, groupTotal d'.values e.1.condList = 1 := by
    intro e he
    rw [hvals] at he ⊢
    rcases List.mem_map.mp he with ⟨e0, he0, rfl⟩
    rw [groupTotal_normaliseValues]
    exact div_self (hnz e0 he0)
  refine ⟨?_, hsum⟩
  unfold DiscreteProbability.normalise
  rw [if_pos (fun e he => by rw [hsum e he]; exact one_ne_zero)]
  have hid : normaliseValues d'.values = d'.values := by
    have hcong : ∀ e ∈ d'.values,
        (fun e : CondEvent × ℚ => (e.1, e.2 / groupTotal d'.values e.1.condList)) e =
        (fun e : CondEvent × ℚ => e) e := by
      intro e he
      simp [hsum e he]
    unfold normaliseValues
    rw [List.map_congr_left hcong, List.map_id']
  rw [hid, ← hmod]

/-- Witness for C2 on a concrete one-entry table. -/
theorem normalise_idempotent_sum_one_witness :
    exDP.normalise = some exDPnorm ∧
    (exDPnorm.normalise = some exDPnorm ∧
      ∀ e ∈ exDPnorm.values, groupTotal exDPnorm.values e.1.condList = 1) := by
  have hcond : ∀ e ∈ exDP.values, groupTotal exDP.values e.1.condList ≠ 0 := by
    intro e he
    simp only [exDP, List.mem_singleton] at he
    subst he
    simp [groupTotal, exDP, exCE1]
  have h : exDP.normalise = some exDPnorm := by
    unfold DiscreteProbability.normalise
    rw [if_pos hcond]
    simp [exDP, exDPnorm, normaliseValues, groupTotal, exCE1]
  exact ⟨h, normalise_idempotent_sum_one exDP exDPnorm h⟩

/-- C3: on a `DiscreteProbability` whose `hasBeenModified_` flag is set,
both `P` and `isDistribution` refuse to compute from the un-normalised
table: any returned result comes from the successfully normalised state
(whose flag is cleared), and the call fails when normalisation fails. -/
theorem modified_flag_guards_queries (d : DiscreteProbability) (ce : CondEvent)
    (hmod : d.hasBeenModified = true) :
    (∀ r d2, d.Pquery ce = some (r, d2) →
      d2.hasBeenModified = false ∧ d.normalise = some d2 ∧ r = lookupP d2.values ce) ∧
    (∀ b d2, d.isDistributionQuery = some (b, d2) →
      d2.hasBeenModified = false ∧ d.normalise = some d2 ∧ b = distCheck d2.values) ∧
    (d.normalise = none → d.Pquery ce = none ∧ d.isDistributionQuery = none) := by
  refine ⟨?_, ?_, ?_⟩
  · intro r d2 h
    unfold DiscreteProbability.Pquery at h
    rw [hmod] at h
    simp only [if_true] at h
    cases hn : d.normalise with
    | none => rw [hn] at h; exact absurd h (by simp)
    | some dn =>
      rw [hn] at h
      simp only [Option.some.injEq, Prod.mk.injEq] at h
      obtain ⟨h1, h2⟩ := h
      subst h2
      exact ⟨normalise_clears_modified d dn hn, rfl, h1.symm⟩
  · intro b d2 h
    unfold DiscreteProbability.isDistributionQuery at h
    rw [hmod] at h
    simp only [if_true] at h
    cases hn : d.normalise with
    | none => rw [hn] at h; exact absurd h (by simp)
    | some dn =>
      rw [hn] at h
      simp only [Option.some.injEq, Prod.mk.injEq] at h
      obtain ⟨h1, h2⟩ := h
      subst h2
      exact ⟨normalise_clears_modified d dn hn, rfl, h1.symm⟩
  · intro hn
    unfold DiscreteProbability.Pquery DiscreteProbability.isDistributionQuery
    rw [hmod, hn]
    simp

/-- Witness for C3 on the concrete modified one-entry table. -/
theorem modified_flag_guards_queries_witness :
    exDP.hasBeenModified = true ∧
    exDP.Pquery exCE1 = some (1, exDPnorm) ∧
    (exDPnorm.hasBeenModified = false ∧ exDP.normalise = some exDPnorm ∧
      (1 : ℚ) = lookupP exDPnorm.values exCE1) := by
  have hcond : ∀ e ∈ exDP.values, groupTotal exDP.values e.1.condList ≠ 0 := by
    intro e he
    simp only [exDP, List.mem_singleton] at he
    subst he
    simp [groupTotal, exDP, exCE1]
  have hnorm : exDP.normalise = some exDPnorm := by
    unfold DiscreteProbability.normalise
    rw [if_pos hcond]
    simp [exDP, exDPnorm, normaliseValues, groupTotal, exCE1]
  have hq : exDP.Pquery exCE1 = some (1, exDPnorm) := by
    unfold DiscreteProbability.Pquery
    rw [show exDP.hasBeenModified = true from rfl]
    simp only [if_true]
    rw [hnorm]
    simp [lookupP, exDPnorm]
  exact ⟨rfl, hq, (modified_flag_guards_queries exDP exCE1 rfl).1 1 exDPnorm hq⟩

/-- C5: for every estimator, `clear()` resets the distribution parameters
to the estimator's default (standard normal for Gaussian, lambda 1 for
exponential, constructor defaults for uniform, the empty table for
discrete) while leaving both variable-domain mappings exactly as they were
before the call. -/
theorem clear_resets_params_keeps_ranges (g : GaussFunction) (u : UniformFloatFunction)
    (ex : ExponentialFunction) (d : DiscreteProbability) :
    (g.clear.eventValueRanges = g.eventValueRanges ∧
      g.clear.conditionValueRanges = g.conditionValueRanges ∧
      g.clear.param = [(EventList.empty, ⟨0, 1, 0⟩)]) ∧
    (u.clear.eventValueRanges = u.eventValueRanges ∧
      u.clear.conditionValueRanges = u.conditionValueRanges ∧
      u.clear.param = [(EventList.empty, ⟨0, 1, 0⟩)]) ∧
    (ex.clear.eventValueRanges = ex.eventValueRanges ∧
      ex.clear.conditionValueRanges = ex.conditionValueRanges ∧
      ex.clear.param = [(EventList.empty, ⟨1, 0⟩)]) ∧
    (d.clear.eventValueRanges = d.eventValueRanges ∧
      d.clear.conditionValueRanges = d.conditionValueRanges ∧
      d.clear.values = []) :=
  ⟨⟨rfl, rfl, rfl⟩, ⟨rfl, rfl, rfl⟩, ⟨rfl, rfl, rfl⟩, ⟨rfl, rfl, rfl⟩⟩

/-- C7: the shared transactional `train` contract — if the call reports
failure the returned estimator state is exactly the pre-call state; if it
reports success the state is the full batch's fold; and failure happens
precisely when some row of the batch is invalid.  Every estimator's train
is an instance of `trainBatch`. -/
theorem trainBatch_transactional {σ Row : Type} (rowValid : Row → Bool)
    (applyRow : σ → Row → σ) (s : σ) (rows : List Row) :
    ((trainBatch rowValid applyRow s rows).2 = false →
      (trainBatch rowValid applyRow s rows).1 = s) ∧
    ((trainBatch rowValid applyRow s rows).2 = true →
      (trainBatch rowValid applyRow s rows).1 = rows.foldl applyRow s) ∧
    ((trainBatch rowValid applyRow s rows).2 = false ↔
      ∃ r ∈ rows, rowValid r = false) := by
  unfold trainBatch
  by_cases h : rows.all rowValid = true
  · rw [if_pos h]
    refine ⟨by simp, fun _ => rfl, ?_⟩
    constructor
    · intro hc
      exact absurd hc (by simp)
    · rintro ⟨r, hr, hv⟩
      have ht := List.all_eq_true.mp h r hr
      rw [hv] at ht
      exact absurd ht (by simp)
  · rw [if_neg h]
    refine ⟨fun _ => rfl, by simp, ?_⟩
    constructor
    · intro _
      have h2 : ∃ r ∈ rows, ¬(rowValid r = true) := by
        by_contra hc
        push_neg at hc
        exact h (List.all_eq_true.mpr hc)
      obtain ⟨r, hr, hv⟩ := h2
      refine ⟨r, hr, ?_⟩
      cases hrv : rowValid r with
      | false => rfl
      | true => exact absurd hrv hv
    · intro _; rfl

/-- Witness for C7: the discrete estimator's train on a batch whose row is
invalid for the declared ranges fails and returns the untouched pre-call
state. -/
theorem trainBatch_transactional_witness :
    (exDPbad.train [exCE1]).2 = false ∧ (exDPbad.train [exCE1]).1 = exDPbad ∧
    (∃ r ∈ [exCE1], possibleCondEventB exDPbad.eventValueRanges
      exDPbad.conditionValueRanges r = false) := by
  have hth := trainBatch_transactional
    (possibleCondEventB exDPbad.eventValueRanges exDPbad.conditionValueRanges)
    dpApplyRow exDPbad [exCE1]
  have hf : (exDPbad.train [exCE1]).2 = false := by decide
  exact ⟨hf, hth.1 hf, hth.2.2.mp hf⟩

/-- Unfolding equation of the chain-rule pool recursion at a cons cell. -/
theorem chainRuleAux_cons {n : ℕ} (pool : Finset (Fin n)) (i : Fin n) (rest : List (Fin n)) :
    chainRuleAux pool (i :: rest) =
      if i ∈ pool then
        (chainRuleAux (pool.erase i) rest).map (fun cel => ⟨{i}, pool.erase i⟩ :: cel)
      else none := rfl

/-- The marginal over the empty index set is the table's total mass. -/
theorem marge_empty {n : ℕ} {V : Type} [Fintype V] [DecidableEq V]
    (p : (Fin n → V) → ℚ) (x : Fin n → V) :
    marge p ∅ x = ∑ y, p y := by
  unfold marge
  rw [Finset.filter_true_of_mem (by intro y _; simp)]

/-- The marginal over the full index set is the table entry itself. -/
theorem marge_univ {n : ℕ} {V : Type} [Fintype V] [DecidableEq V]
    (p : (Fin n → V) → ℚ) (x : Fin n → V) :
    marge p Finset.univ x = p x := by
  unfold marge
  have hf : Finset.univ.filter
      (fun y : Fin n → V => ∀ i ∈ (Finset.univ : Finset (Fin n)), y i = x i) = {x} := by
    ext y
    simp [funext_iff]
  rw [hf, Finset.sum_singleton]

/-- Marginals of a nonnegative table shrink as the constraint set grows. -/
theorem marge_mono {n : ℕ} {V : Type} [Fintype V] [DecidableEq V]
    (p : (Fin n → V) → ℚ) (hnn : ∀ y, 0 ≤ p y) (x : Fin n → V)
    {S T : Finset (Fin n)} (hST : S ⊆ T) :
    marge p T x ≤ marge p S x := by
  unfold marge
  apply Finset.sum_le_sum_of_subset_of_nonneg
  · intro y hy
    simp only [Finset.mem_filter] at hy ⊢
    exact ⟨hy.1, fun i hi => hy.2 i (hST hi)⟩
  · intro y _ _
    exact hnn y

/-- Marginals of a nonnegative table are nonnegative. -/
theorem marge_nonneg {n : ℕ} {V : Type} [Fintype V] [DecidableEq V]
    (p : (Fin n → V) → ℚ) (hnn : ∀ y, 0 ≤ p y) (S : Finset (Fin n)) (x : Fin n → V) :
    0 ≤ marge p S x := by
  unfold marge
  exact Finset.sum_nonneg (fun y _ => hnn y)

/-- Pool recursion of the chain rule over a duplicate-free name list: the
decomposition succeeds, each produced conditional event holds exactly the
requested name on its event side and all later names on its condition side,
and the probabilities multiply up to the marginal of the whole pool. -/
theorem chainRuleAux_spec {n : ℕ} {V : Type} [Fintype V] [DecidableEq V]
    (p : (Fin n → V) → ℚ) (hnn : ∀ y, 0 ≤ p y) (h1 : (∑ y, p y) = 1)
    (x : Fin n → V) :
    ∀ (names : List (Fin n)), names.Nodup →
      ∃ cel, chainRuleAux names.toFinset names = some cel ∧
        cel.length = names.length ∧
        (∀ k (hk : k < cel.length) (hk2 : k < names.length),
          (cel.get ⟨k, hk⟩).evt = {names.get ⟨k, hk2⟩} ∧
          (cel.get ⟨k, hk⟩).cond = (names.drop (k + 1)).toFinset) ∧
        (cel.map (fun c => chainP p c x)).prod = marge p names.toFinset x := by
  intro names
  induction names with
  | nil =>
    intro _
    refine ⟨[], rfl, rfl, ?_, ?_⟩
    · intro k hk _
      exact absurd hk (Nat.not_lt_zero k)
    · simp only [List.map_nil, List.prod_nil, List.toFinset_nil]
      rw [marge_empty p x, h1]
  | cons i rest ih =>
    intro hnd
    obtain ⟨hi, hndr⟩ := List.nodup_cons.mp hnd
    obtain ⟨cel', hc', hlen', hstr', hprod'⟩ := ih hndr
    have hpool : (i :: rest).toFinset = insert i rest.toFinset := by
      simp [List.toFinset_cons]
    have hmem : i ∈ (i :: rest).toFinset := by simp
    have herase : (i :: rest).toFinset.erase i = rest.toFinset := by
      rw [hpool, Finset.erase_insert (by simpa using hi)]
    refine ⟨⟨{i}, rest.toFinset⟩ :: cel', ?_, ?_, ?_, ?_⟩
    · rw [chainRuleAux_cons, if_pos hmem, herase, hc']
      rfl
    · simp [hlen']
    · intro k hk hk2
      cases k with
      | zero => exact ⟨rfl, rfl⟩
      | succ m =>
        have hm : m < cel'.length := by simpa using hk
        have hm2 : m < rest.length := by simpa using hk2
        have hs := hstr' m hm hm2
        exact ⟨hs.1, hs.2⟩
    · have hstep : ((⟨{i}, rest.toFinset⟩ : CondEventIdx n) :: cel').map
          (fun c => chainP p c x) =
          chainP p ⟨{i}, rest.toFinset⟩ x :: cel'.map (fun c => chainP p c x) := rfl
      rw [hstep, List.prod_cons, hprod']
      have hun : (({i} : Finset (Fin n)) ∪ rest.toFinset) = (i :: rest).toFinset := by
        rw [hpool, Finset.insert_eq]
      unfold chainP
      rw [show ((⟨{i}, rest.toFinset⟩ : CondEventIdx n).evt ∪
          (⟨{i}, rest.toFinset⟩ : CondEventIdx n).cond) =
          (({i} : Finset (Fin n)) ∪ rest.toFinset) from rfl, hun]
      by_cases hz : marge p rest.toFinset x = 0
      · have hsub : rest.toFinset ⊆ (i :: rest).toFinset := by
          rw [hpool]
          exact Finset.subset_insert i _
        have hle : marge p (i :: rest).toFinset x ≤ 0 :=
          hz ▸ marge_mono p hnn x hsub
        have hge : 0 ≤ marge p (i :: rest).toFinset x := marge_nonneg p hnn _ x
        rw [le_antisymm hle hge, hz]
        simp
      · exact div_mul_cancel₀ _ hz

/-- C1: for a canonised, normalised discrete joint table over the variables
of the combined event+condition scope, and any permutation ordering of the
variable names, `CondEvent::chainRule` produces conditional events whose
i-th element has exactly the i-th name on its event side and all later
names on its condition side, and the product of the table's probabilities
of these conditional events equals the joint probability of the full
event (exactly, in the rational model, hence within floating tolerance). -/
theorem chainRule_factorisation {n : ℕ} {V : Type} [Fintype V] [DecidableEq V]
    (p : (Fin n → V) → ℚ) (hnn : ∀ y, 0 ≤ p y) (hnorm : (∑ y, p y) = 1)
    (names : List (Fin n)) (hnd : names.Nodup) (hcov : ∀ i, i ∈ names)
    (x : Fin n → V) :
    ∃ cel, chainRuleAux Finset.univ names = some cel ∧
      cel.length = names.length ∧
      (∀ k (hk : k < cel.length) (hk2 : k < names.length),
        (cel.get ⟨k, hk⟩).evt = {names.get ⟨k, hk2⟩} ∧
        (cel.get ⟨k, hk⟩).cond = (names.drop (k + 1)).toFinset) ∧
      (cel.map (fun c => chainP p c x)).prod = p x := by
  have huniv : names.toFinset = Finset.univ := by
    apply Finset.eq_univ_iff_forall.mpr
    intro i
    simpa using hcov i
  obtain ⟨cel, hc, hlen, hstr, hprod⟩ := chainRuleAux_spec p hnn hnorm x names hnd
  rw [huniv] at hc hprod
  rw [marge_univ] at hprod
  exact ⟨cel, hc, hlen, hstr, hprod⟩

/-- Witness for C1 on the one-variable table with the constant distribution. -/
theorem chainRule_factorisation_witness :
    (∀ y : Fin 1 → Unit, 0 ≤ (fun _ : Fin 1 → Unit => (1 : ℚ)) y) ∧
    (∑ y : Fin 1 → Unit, (fun _ : Fin 1 → Unit => (1 : ℚ)) y) = 1 ∧
    ([(0 : Fin 1)].Nodup ∧ ∀ i : Fin 1, i ∈ [(0 : Fin 1)]) ∧
    (∃ cel, chainRuleAux Finset.univ [(0 : Fin 1)] = some cel ∧
      cel.length = [(0 : Fin 1)].length ∧
      (∀ k (hk : k < cel.length) (hk2 : k < [(0 : Fin 1)].length),
        (cel.get ⟨k, hk⟩).evt = {[(0 : Fin 1)].get ⟨k, hk2⟩} ∧
        (cel.get ⟨k, hk⟩).cond = ([(0 : Fin 1)].drop (k + 1)).toFinset) ∧
      (cel.map (fun c => chainP (fun _ : Fin 1 → Unit => (1 : ℚ)) c
        (fun _ : Fin 1 => ()))).prod = (fun _ : Fin 1 → Unit => (1 : ℚ))
          (fun _ : Fin 1 => ())) := by
  have hnn : ∀ y : Fin 1 → Unit, 0 ≤ (fun _ : Fin 1 → Unit => (1 : ℚ)) y :=
    fun _ => zero_le_one
  have hnorm : (∑ y : Fin 1 → Unit, (fun _ : Fin 1 → Unit => (1 : ℚ)) y) = 1 := by simp
  have hnd : ([(0 : Fin 1)]).Nodup := by simp
  have hcov : ∀ i : Fin 1, i ∈ [(0 : Fin 1)] := by decide
  exact ⟨hnn, hnorm, ⟨hnd, hcov⟩,
    chainRule_factorisation (fun _ => (1 : ℚ)) hnn hnorm [(0 : Fin 1)] hnd hcov
      (fun _ => ())⟩

end StatUtil
